import Mathlib

/-!
Shallow embedding of the `stream` package of the lancet repository
(src/stream/stream.go).

A Go `stream[T]` is a struct with a single field `source []T`.  A Go slice
is either `nil` or an initialized slice; the two are distinguished only by
`s.source == nil` tests (`Limit`, `FindFirst`, `FindLast`), while `len` and
`range` treat `nil` as length 0.  We model the backing slice as
`Option (List T)`: `none` is the nil slice, `some l` an initialized slice
holding the elements `l` in order.

Panics are modelled by `Option` results (`none` = the call panics and no
value is produced).  The gob-based `hashKey` fingerprint used by `Distinct`
is modelled as a parameter `key : T → Option String`: `some k` is the
deterministic encoding of the element, `none` means the element cannot be
encoded (in which case `hashKey` panics).

Go `int` values supplied by callers (`Skip`, `Limit` arguments, counts)
are modelled as `Int`: those values feed only comparisons and loop
bounds, never arithmetic that can wrap.  `FromRange` does perform
machine arithmetic on its arguments, so it is modelled with explicit
two's-complement wraparound (`wrap64`) at the `int64` instantiation.
-/

structure stream (T : Type) where
  source : Option (List T)
deriving Repr, DecidableEq

/-- Go `FromSlice` wraps the given slice directly as the backing sequence. -/
def FromSlice {T : Type} (source : Option (List T)) : stream T :=
  ⟨source⟩

/-- Go `Of(elems...)`: a Go variadic call with no arguments passes the nil
slice, a call with arguments passes a fresh initialized slice. -/
def Of {T : Type} (elems : List T) : stream T :=
  match elems with
  | [] => FromSlice none
  | l => FromSlice (some l)

/-- The elements of the backing sequence; Go `len`/`range` treat a nil
slice as the empty sequence. -/
def stream.toList {T : Type} (s : stream T) : List T :=
  s.source.getD []

/-- Go `Count` returns `len(s.source)` as a Go `int`. -/
def stream.Count {T : Type} (s : stream T) : Int :=
  (s.toList.length : Int)

/-- Go `ToSlice` returns the backing sequence directly. -/
def stream.ToSlice {T : Type} (s : stream T) : Option (List T) :=
  s.source

/-- Two's-complement wraparound of 64-bit machine arithmetic: maps any
integer to the representative of its residue class modulo `2^64` lying in
`[-2^63, 2^63)`.  Go's fixed-width integers wrap on overflow of `-`, `*`
and `+`; `int64` is the widest instantiation of the generic element type
and the one modelled here. -/
def wrap64 (x : Int) : Int :=
  (x + 9223372036854775808) % 18446744073709551616 - 9223372036854775808

/-- Go `FromRange(start, end, step)` at the `int64` element type.  The
guards panic (`none`) when `end < start` or `step <= 0`; then the length
`l := int((end-start)/step) + 1` is computed with wrapping subtraction,
Go's truncating (toward zero) division and wrapping increment;
`make([]T, l)` panics (`none`) when `l` is negative; otherwise
`source[i] = start + T(i)*step` with wrapping multiplication and
addition.  The Go local variable `l` is inlined into its two use
sites. -/
def FromRange (start e step : Int) : Option (stream Int) :=
  if e < start then none
  else if step ≤ 0 then none
  else if wrap64 ((wrap64 (e - start)).tdiv step + 1) < 0 then none
  else some (FromSlice (some
    ((List.range (wrap64 ((wrap64 (e - start)).tdiv step + 1)).toNat).map
      fun i : Nat => wrap64 (start + wrap64 ((i : Int) * step)))))

theorem wrap64_eq_self (x : Int) (h1 : -9223372036854775808 ≤ x)
    (h2 : x < 9223372036854775808) : wrap64 x = x := by
  unfold wrap64
  omega

theorem tdiv_nonneg_eq (d step : Int) (hd : 0 ≤ d) (hs : 0 < step) :
    d.tdiv step = ((d.toNat / step.toNat : Nat) : Int) := by
  obtain ⟨m, rfl⟩ := Int.eq_ofNat_of_zero_le hd
  obtain ⟨n, rfl⟩ := Int.eq_ofNat_of_zero_le hs.le
  rfl

theorem range_mul_le_diff (e start step : Int) (i : Nat) (hst : 0 < step)
    (hd0 : 0 ≤ e - start) (hi : i < (e - start).toNat / step.toNat + 1) :
    0 ≤ (i : Int) * step ∧ (i : Int) * step ≤ e - start := by
  have hile : i ≤ (e - start).toNat / step.toNat := Nat.lt_succ_iff.mp hi
  have hmul : i * step.toNat ≤ (e - start).toNat := by
    calc i * step.toNat ≤ (e - start).toNat / step.toNat * step.toNat :=
          Nat.mul_le_mul_right _ hile
      _ ≤ (e - start).toNat := Nat.div_mul_le_self _ _
  have hstep : ((step.toNat : Nat) : Int) = step := Int.toNat_of_nonneg hst.le
  have hd : (((e - start).toNat : Nat) : Int) = e - start := Int.toNat_of_nonneg hd0
  have hcast : (i : Int) * step ≤ e - start := by
    have h := Int.ofNat_le.mpr hmul
    push_cast at h
    rw [hstep, hd] at h
    exact h
  exact ⟨by positivity, hcast⟩

/-- C6 counterexample: with `start = -9*10^18`, `end = 9*10^18`,
`step = 1` the claimed panic condition (`end < start` or `step <= 0`) is
false, yet the machine subtraction `end - start` wraps negative, the
computed slice length is negative and `make` panics: the program does
not return normally. -/
theorem FromRange_panics_iff_counterexample :
    FromRange (-9000000000000000000) 9000000000000000000 1 = none ∧
    ¬((9000000000000000000 : Int) < -9000000000000000000 ∨ (1 : Int) ≤ 0) := by
  constructor
  · decide
  · decide

/-- C6 (amended): `FromRange` fails fast exactly when `end < start`, or
`step <= 0`, or the machine-computed element count
`int((end-start)/step) + 1` wraps to a negative value; for all other
arguments it returns normally. -/
theorem FromRange_panics_iff_amended (start e step : Int) :
    FromRange start e step = none ↔
      (e < start ∨ step ≤ 0 ∨ wrap64 ((wrap64 (e - start)).tdiv step + 1) < 0) := by
  unfold FromRange
  by_cases h1 : e < start
  · simp [h1]
  · by_cases h2 : step ≤ 0
    · simp [h1, h2]
    · by_cases h3 : wrap64 ((wrap64 (e - start)).tdiv step + 1) < 0 <;>
        simp [h1, h2, h3]

/-- C5 counterexample: at `start = -9*10^18`, `end = 9*10^18`,
`step = 10^18` the guards pass and the exact count
`floor((end-start)/step) + 1` is `19`, but the machine subtraction
`end - start` wraps negative, its truncated quotient is `0`, and the
program returns the single-element stream `[start]` instead of 19
elements. -/
theorem FromRange_spec_counterexample :
    (0 : Int) < 1000000000000000000 ∧
    (-9000000000000000000 : Int) ≤ 9000000000000000000 ∧
    ((9000000000000000000 : Int) - -9000000000000000000).toNat
      / (1000000000000000000 : Int).toNat + 1 = 19 ∧
    FromRange (-9000000000000000000) 9000000000000000000 1000000000000000000
      = some (FromSlice (some [-9000000000000000000])) := by
  refine ⟨by decide, by decide, by decide, ?_⟩
  decide

/-- C5 (amended): with `step > 0`, `end ≥ start`, the operands inside the
`int64` range, and no overflow — the difference `end - start` and the
element count `(end-start)/step + 1` both below `2^63` — `FromRange`
returns the stream `start, start+step, start+2*step, …` with exactly
`floor((end-start)/step) + 1` elements, none exceeding `end`. -/
theorem FromRange_spec_amended (start e step : Int) (hst : 0 < step) (hse : start ≤ e)
    (hlo : -9223372036854775808 ≤ start) (hhi : e < 9223372036854775808)
    (hdiff : e - start < 9223372036854775808)
    (hcount : (e - start).toNat / step.toNat + 1 < 9223372036854775808) :
    ∃ s : stream Int,
      FromRange start e step = some s ∧
      s.toList = (List.range ((e - start).toNat / step.toNat + 1)).map
        (fun i : Nat => start + (i : Int) * step) ∧
      s.toList.length = (e - start).toNat / step.toNat + 1 ∧
      ∀ x ∈ s.toList, x ≤ e := by
  have hd0 : (0 : Int) ≤ e - start := by omega
  have hwd : wrap64 (e - start) = e - start := wrap64_eq_self _ (by omega) hdiff
  have htd : (e - start).tdiv step = (((e - start).toNat / step.toNat : Nat) : Int) :=
    tdiv_nonneg_eq _ _ hd0 hst
  have hwl : wrap64 ((wrap64 (e - start)).tdiv step + 1)
      = (((e - start).toNat / step.toNat + 1 : Nat) : Int) := by
    rw [hwd, htd]
    push_cast
    apply wrap64_eq_self
    · have : (0 : Int) ≤ ((e - start).toNat / step.toNat : Nat) := by positivity
      omega
    · have := hcount
      omega
  have key : FromRange start e step
      = some (FromSlice (some ((List.range ((e - start).toNat / step.toNat + 1)).map
          fun i : Nat => wrap64 (start + wrap64 ((i : Int) * step))))) := by
    unfold FromRange
    rw [if_neg (by omega : ¬ e < start)]
    rw [if_neg (by omega : ¬ step ≤ 0)]
    rw [hwl]
    rw [if_neg (not_lt.mpr (Int.natCast_nonneg _))]
    rw [Int.toNat_natCast]
  have hmap : (List.range ((e - start).toNat / step.toNat + 1)).map
        (fun i : Nat => wrap64 (start + wrap64 ((i : Int) * step)))
      = (List.range ((e - start).toNat / step.toNat + 1)).map
        (fun i : Nat => start + (i : Int) * step) := by
    apply List.map_eq_map_iff.mpr
    intro i hi
    rw [List.mem_range] at hi
    obtain ⟨hp0, hple⟩ := range_mul_le_diff e start step i hst hd0 hi
    have hw1 : wrap64 ((i : Int) * step) = (i : Int) * step :=
      wrap64_eq_self _ (by omega) (by omega)
    rw [hw1]
    exact wrap64_eq_self _ (by omega) (by omega)
  refine ⟨FromSlice (some ((List.range ((e - start).toNat / step.toNat + 1)).map
      fun i : Nat => start + (i : Int) * step)), ?_, rfl,
    by rw [stream.toList, FromSlice, Option.getD_some, List.length_map, List.length_range], ?_⟩
  · rw [key, hmap]
  · intro x hx
    simp only [stream.toList, FromSlice, Option.getD_some, List.mem_map,
      List.mem_range] at hx
    obtain ⟨i, hi, rfl⟩ := hx
    obtain ⟨hp0, hple⟩ := range_mul_le_diff e start step i hst hd0 hi
    omega

/-- Witness for the amended C5 at overflow-free concrete inputs:
`FromRange(1,10,2)` is `[1,3,5,7,9]` and `FromRange` with `end = start`
is the single-element stream `[start]`. -/
theorem FromRange_spec_amended_witness :
    (∃ s : stream Int, FromRange 1 10 2 = some s ∧
      s.toList = [1, 3, 5, 7, 9] ∧ s.toList.length = 5 ∧ ∀ x ∈ s.toList, x ≤ 10) ∧
    (∃ s : stream Int, FromRange 5 5 3 = some s ∧ s.toList = [5]) := by
  constructor
  · obtain ⟨s, h1, h2, h3, h4⟩ := FromRange_spec_amended 1 10 2 (by decide) (by decide)
      (by decide) (by decide) (by decide) (by decide)
    refine ⟨s, h1, ?_, ?_, h4⟩
    · rw [h2]; decide
    · rw [h3]; decide
  · obtain ⟨s, h1, h2, _, _⟩ := FromRange_spec_amended 5 5 3 (by decide) (by decide)
      (by decide) (by decide) (by decide) (by decide)
    refine ⟨s, h1, ?_⟩
    rw [h2]; decide

/-- C9 model of `Generate`.  The stateful pull function returned by the
generator is modelled by the finite trace of its successive return values
`(item, ok)`.  The loop starts with `ok = true`, calls the pull function
once per iteration, appends the item exactly when `ok` is true, and stops
as soon as a call returns `ok = false` (the item of that call is never
appended).  An all-`true` trace corresponds to the prefix of a run that
has not yet terminated. -/
def generateFrom {T : Type} : List (T × Bool) → List T
  | [] => []
  | c :: rest => if c.2 then c.1 :: generateFrom rest else []

/-- Go `Generate` materializes the drained items into an initialized slice. -/
def Generate {T : Type} (calls : List (T × Bool)) : stream T :=
  FromSlice (some (generateFrom calls))

theorem generateFrom_eq_takeWhile {T : Type} (calls : List (T × Bool)) :
    generateFrom calls = (calls.takeWhile fun c => c.2).map Prod.fst := by
  induction calls with
  | nil => rfl
  | cons c rest ih =>
    obtain ⟨a, b⟩ := c
    cases b <;> simp [generateFrom, List.takeWhile_cons, ih]

/-- C9: Generate appends exactly the items returned together with
`hasMore = true` strictly before the first `false`; the item of the
terminating call is discarded, and a pull function returning `false` on
its first call yields an empty stream. -/
theorem Generate_spec {T : Type} (calls : List (T × Bool)) :
    (Generate calls).source = some ((calls.takeWhile fun c => c.2).map Prod.fst) ∧
    (∀ (item : T) (rest : List (T × Bool)),
      Generate ((item, false) :: rest) = FromSlice (some [])) := by
  constructor
  · rw [Generate, FromSlice, generateFrom_eq_takeWhile]
  · intro item rest
    rfl

/-- Go `Skip(n)`: `n <= 0` returns the same stream; otherwise an initialized
slice is allocated, and when `n` exceeds `len(s.source)` it is returned
empty, else it receives the elements from index `n` on. -/
def stream.Skip {T : Type} (s : stream T) (n : Int) : stream T :=
  if n ≤ 0 then s
  else if (s.toList.length : Int) < n then FromSlice (some [])
  else FromSlice (some (s.toList.drop n.toNat))

/-- C7: `Skip(n)` with `n <= 0` is the identity, `Skip(n)` with `n`
greater than the length returns an (initialized) empty stream, and for
`n >= 0` the count identity `Skip(n).Count + min(n, Count) = Count`
holds. -/
theorem Skip_spec {T : Type} (s : stream T) (n : Int) :
    (n ≤ 0 → s.Skip n = s) ∧
    (s.Count < n → (s.Skip n).source = some []) ∧
    (0 ≤ n → (s.Skip n).Count + min n s.Count = s.Count) := by
  refine ⟨fun h => by rw [stream.Skip, if_pos h], fun h => ?_, fun h => ?_⟩
  · have hlen : (0 : Int) ≤ (s.toList.length : Int) := by positivity
    rw [stream.Count] at h
    rw [stream.Skip, if_neg (by omega), if_pos h]
    rfl
  · have hcount : s.Count = (s.toList.length : Int) := rfl
    by_cases h0 : n ≤ 0
    · have hn0 : n = 0 := le_antisymm h0 h
      rw [stream.Skip, if_pos h0, hcount, hn0]
      omega
    · rw [stream.Skip, if_neg h0]
      by_cases h1 : (s.toList.length : Int) < n
      · rw [if_pos h1]
        have h2 : (FromSlice (some ([] : List T))).Count = 0 := rfl
        rw [h2, hcount]
        omega
      · rw [if_neg h1]
        have h2 : (FromSlice (some (s.toList.drop n.toNat))).Count
            = ((s.toList.length - n.toNat : Nat) : Int) := by
          simp [stream.Count, stream.toList, FromSlice, List.length_drop]
        rw [h2, hcount]
        omega

/-- Witness for C7 on `Of(1,2,3)` with `n = 2`. -/
theorem Skip_spec_witness :
    (Of [(1 : Int), 2, 3]).Skip 2 = FromSlice (some [3]) ∧
    ((Of [(1 : Int), 2, 3]).Skip 2).Count + min 2 (Of [(1 : Int), 2, 3]).Count =
      (Of [(1 : Int), 2, 3]).Count := by
  have h := (Skip_spec (Of [(1 : Int), 2, 3]) 2).2.2 (by decide)
  exact ⟨by decide, h⟩

/-- The collecting loop of `Limit`: `for i := 0; i < len(src) && i < maxSize; i++`
appends `src[i]`; modelled structurally over the list with the remaining
budget `m`. -/
def takeInt {T : Type} : Int → List T → List T
  | _, [] => []
  | m, v :: rest => if 0 < m then v :: takeInt (m - 1) rest else []

/-- Go `Limit(maxSize)`: a nil backing slice is returned unchanged; a negative
`maxSize` yields a fresh empty stream; otherwise the first `maxSize`
elements are collected. -/
def stream.Limit {T : Type} (s : stream T) (maxSize : Int) : stream T :=
  match s.source with
  | none => s
  | some l =>
    if maxSize < 0 then FromSlice (some [])
    else FromSlice (some (takeInt maxSize l))

theorem takeInt_eq_take {T : Type} (m : Int) (l : List T) :
    takeInt m l = l.take m.toNat := by
  induction l generalizing m with
  | nil => simp [takeInt]
  | cons v rest ih =>
    by_cases h : 0 < m
    · have hm : m.toNat = (m - 1).toNat + 1 := by omega
      rw [takeInt, if_pos h, hm, List.take_succ_cons, ih]
    · have hm : m.toNat = 0 := by omega
      rw [takeInt, if_neg h, hm, List.take_zero]

/-- C2: `Limit` on a nil-backed stream is the identity for every `maxSize`;
on an initialized stream a negative `maxSize` yields an empty stream, and a
nonnegative one keeps exactly the first `min(maxSize, length)` elements in
order. -/
theorem Limit_spec {T : Type} (s : stream T) (m : Int) :
    (s.source = none → s.Limit m = s) ∧
    (∀ l : List T, s.source = some l →
      (m < 0 → s.Limit m = FromSlice (some [])) ∧
      (0 ≤ m → (s.Limit m).source = some (l.take (min m.toNat l.length)))) := by
  obtain ⟨src⟩ := s
  cases src with
  | none =>
    refine ⟨fun _ => rfl, fun l hl => ?_⟩
    exact absurd hl (by simp)
  | some l0 =>
    refine ⟨fun h => absurd h (by simp), fun l hl => ?_⟩
    have hl0 : l0 = l := by injection hl
    subst hl0
    constructor
    · intro hm
      show (if m < 0 then FromSlice (some []) else FromSlice (some (takeInt m l0)))
        = FromSlice (some [])
      rw [if_pos hm]
    · intro hm
      show (if m < 0 then FromSlice (some ([] : List T))
        else FromSlice (some (takeInt m l0))).source = _
      rw [if_neg (by omega), FromSlice]
      have htake : l0.take (min m.toNat l0.length) = l0.take m.toNat := by
        rw [← List.take_take, List.take_length]
      rw [htake, takeInt_eq_take]

/-- Witness for C2: identity on a nil-backed stream, empty on negative
`maxSize`, prefix on `maxSize = 2`. -/
theorem Limit_spec_witness :
    (FromSlice (none : Option (List Int))).Limit 5 = FromSlice none ∧
    (FromSlice (some [(1 : Int), 2, 3])).Limit (-1) = FromSlice (some []) ∧
    ((FromSlice (some [(1 : Int), 2, 3])).Limit 2).source = some [1, 2] := by
  have h1 := (Limit_spec (FromSlice (none : Option (List Int))) 5).1 rfl
  have h2 := ((Limit_spec (FromSlice (some [(1 : Int), 2, 3])) (-1)).2 [1, 2, 3] rfl).1
    (by decide)
  have h3 := ((Limit_spec (FromSlice (some [(1 : Int), 2, 3])) 2).2 [1, 2, 3] rfl).2
    (by decide)
  refine ⟨h1, h2, ?_⟩
  rw [h3]
  decide

/-- Go `Filter(predicate)`: collects, in order, the elements on which the
predicate is true, into a fresh initialized slice. -/
def stream.Filter {T : Type} (s : stream T) (predicate : T → Bool) : stream T :=
  FromSlice (some (s.toList.filter predicate))

/-- Go `AllMatch(predicate)`: returns false on the first element falsifying
the predicate, true otherwise (vacuously true on an empty stream). -/
def stream.AllMatch {T : Type} (s : stream T) (predicate : T → Bool) : Bool :=
  s.toList.all predicate

/-- C8: for every stream and predicate, `s.Filter(p).AllMatch(p)` is
true. -/
theorem Filter_AllMatch {T : Type} (s : stream T) (p : T → Bool) :
    (s.Filter p).AllMatch p = true := by
  rw [stream.AllMatch, stream.Filter, FromSlice, stream.toList, Option.getD_some,
    List.all_eq_true]
  intro x hx
  exact (List.mem_filter.mp hx).2

/-- Go `Map(mapper)`: allocates a slice of the same length and fills position
`i` with `mapper(src[i])`. -/
def stream.Map {T : Type} (s : stream T) (mapper : T → T) : stream T :=
  FromSlice (some (s.toList.map mapper))

/-- Go `Reverse`: allocates a slice of the same length and fills position `i`
with `src[len-1-i]`. -/
def stream.Reverse {T : Type} (s : stream T) : stream T :=
  FromSlice (some (s.toList.reverse))

/-- The loop body of `Max`/`Min`: at index `i` the running extreme `acc`
is replaced by `v` exactly when `less v acc || i == 0`. -/
def maxLoop {T : Type} (less : T → T → Bool) : List T → Nat → T → T
  | [], _, acc => acc
  | v :: rest, i, acc => maxLoop less rest (i + 1) (if less v acc || i == 0 then v else acc)

/-- Go `Max(less)`: `(zero value, false)` on an empty backing sequence, else
the indexed scan starting from the zero value (`var max T`). -/
def stream.Max {T : Type} [Inhabited T] (s : stream T) (less : T → T → Bool) : T × Bool :=
  if s.toList.length = 0 then (default, false)
  else (maxLoop less s.toList 0 default, true)

/-- The loop body of `Min` is the same code as `Max` with the caller
expected to pass the dual predicate. -/
def minLoop {T : Type} (less : T → T → Bool) : List T → Nat → T → T
  | [], _, acc => acc
  | v :: rest, i, acc => minLoop less rest (i + 1) (if less v acc || i == 0 then v else acc)

/-- Go `Min(less)`: `(zero value, false)` on an empty backing sequence, else
the indexed scan starting from the zero value (`var min T`). -/
def stream.Min {T : Type} [Inhabited T] (s : stream T) (less : T → T → Bool) : T × Bool :=
  if s.toList.length = 0 then (default, false)
  else (minLoop less s.toList 0 default, true)

/-- The replacement rule stated by the spec: the candidate replaces the
running best exactly when `less candidate best` is true; in particular a
candidate equal-under-`less` to the best never replaces it. -/
def extremeStep {T : Type} (less : T → T → Bool) (best v : T) : T :=
  if less v best then v else best

theorem maxLoop_of_ne_zero {T : Type} (less : T → T → Bool) (xs : List T) :
    ∀ (i : Nat) (acc : T), i ≠ 0 → maxLoop less xs i acc = xs.foldl (extremeStep less) acc := by
  induction xs with
  | nil => intro i acc _; rfl
  | cons v rest ih =>
    intro i acc hi
    rw [maxLoop, List.foldl_cons]
    have h0 : (i == 0) = false := by simpa using hi
    rw [h0, Bool.or_false]
    exact ih (i + 1) _ (Nat.succ_ne_zero i)

theorem minLoop_of_ne_zero {T : Type} (less : T → T → Bool) (xs : List T) :
    ∀ (i : Nat) (acc : T), i ≠ 0 → minLoop less xs i acc = xs.foldl (extremeStep less) acc := by
  induction xs with
  | nil => intro i acc _; rfl
  | cons v rest ih =>
    intro i acc hi
    rw [minLoop, List.foldl_cons]
    have h0 : (i == 0) = false := by simpa using hi
    rw [h0, Bool.or_false]
    exact ih (i + 1) _ (Nat.succ_ne_zero i)

/-- C1: on an empty stream `Max`/`Min` return `(zero value, false)`; on a
non-empty stream they scan left to right, the first element always becomes
the initial running best, and afterwards the best is replaced exactly when
`less candidate best` holds (first extreme encountered wins on
equal-under-`less`). -/
theorem Max_Min_spec {T : Type} [Inhabited T] (s : stream T) (less : T → T → Bool) :
    (s.toList = [] → s.Max less = (default, false) ∧ s.Min less = (default, false)) ∧
    (∀ (x : T) (xs : List T), s.toList = x :: xs →
      s.Max less = (xs.foldl (extremeStep less) x, true) ∧
      s.Min less = (xs.foldl (extremeStep less) x, true)) := by
  constructor
  · intro h
    refine ⟨?_, ?_⟩
    · rw [stream.Max, if_pos (by rw [h]; rfl)]
    · rw [stream.Min, if_pos (by rw [h]; rfl)]
  · intro x xs h
    constructor
    · rw [stream.Max, if_neg (by rw [h]; simp), h, maxLoop]
      have h0 : ((0 : Nat) == 0) = true := rfl
      rw [h0, Bool.or_true, if_pos rfl]
      rw [maxLoop_of_ne_zero less xs 1 x one_ne_zero]
    · rw [stream.Min, if_neg (by rw [h]; simp), h, minLoop]
      have h0 : ((0 : Nat) == 0) = true := rfl
      rw [h0, Bool.or_true, if_pos rfl]
      rw [minLoop_of_ne_zero less xs 1 x one_ne_zero]

/-- Witness for C1: the empty integer stream gives `(0, false)`; on
`Of(3,1,3)` with `less = (<)` the scan keeps the first `1`. -/
theorem Max_Min_spec_witness :
    (Of ([] : List Int)).Max (fun a b => decide (a < b)) = (0, false) ∧
    (Of [(3 : Int), 1, 3]).Max (fun a b => decide (a < b)) = (1, true) ∧
    (Of [(3 : Int), 1, 3]).Min (fun a b => decide (a < b)) = (1, true) := by
  have h1 := ((Max_Min_spec (Of ([] : List Int)) (fun a b => decide (a < b))).1 rfl).1
  have h2 := (Max_Min_spec (Of [(3 : Int), 1, 3]) (fun a b => decide (a < b))).2 3 [1, 3] rfl
  refine ⟨by rw [h1]; rfl, ?_, ?_⟩
  · rw [h2.1]; decide
  · rw [h2.2]; decide

/-- The loop of `Distinct`: for each element, `hashKey` is computed (a
`none` key aborts the whole call — the gob encoder panicked), and the
element is appended exactly when its key has not been seen before. -/
def distinctAux {T : Type} (key : T → Option String) :
    List T → List String → Option (List T)
  | [], _ => some []
  | v :: rest, seen =>
    match key v with
    | none => none
    | some k =>
      if seen.contains k then distinctAux key rest seen
      else (distinctAux key rest (k :: seen)).map fun tl => v :: tl

/-- Go `Distinct()` with the gob fingerprint modelled by `key`; `none` means
the call panics and no stream is produced. -/
def stream.Distinct {T : Type} (s : stream T) (key : T → Option String) :
    Option (stream T) :=
  (distinctAux key s.toList []).map fun l => FromSlice (some l)

/-- Modelled from the spec: "keeps first occurrence of each element
under a structural-equality fingerprint; relative order of kept elements
preserved".  The head is kept and every later element with the same
fingerprint is removed before recursing. -/
def distinctSpec {T : Type} (k : T → String) : List T → List T
  | [] => []
  | v :: rest => v :: distinctSpec k (rest.filter fun w => !(k w == k v))
termination_by l => l.length
decreasing_by
  simp only [List.length_cons]
  exact Nat.lt_succ_of_le (List.length_filter_le _ _)

theorem distinctAux_total_eq {T : Type} (k : T → String) (l : List T) :
    ∀ seen : List String,
      distinctAux (fun v => some (k v)) l seen
        = some (distinctSpec k (l.filter fun v => !seen.contains (k v))) := by
  induction l with
  | nil => intro seen; simp [distinctAux, distinctSpec]
  | cons v rest ih =>
    intro seen
    simp only [distinctAux, List.filter_cons]
    by_cases hv : seen.contains (k v) = true
    · rw [if_pos hv]
      have hp : ¬((!seen.contains (k v)) = true) := by rw [hv]; decide
      rw [if_neg hp]
      exact ih seen
    · rw [if_neg hv]
      have hvf : seen.contains (k v) = false := by
        cases h : seen.contains (k v)
        · rfl
        · exact absurd h hv
      have hp : (!seen.contains (k v)) = true := by rw [hvf]; rfl
      rw [if_pos hp]
      rw [ih (k v :: seen), Option.map_some']
      rw [distinctSpec, List.filter_filter]
      have hfil : (rest.filter fun w => !(k v :: seen).contains (k w))
          = (rest.filter fun a => (!(k a == k v)) && !seen.contains (k a)) := by
        apply List.filter_congr
        intro w _
        by_cases hba : k w = k v
        · simp [List.contains_cons, hba]
        · simp [List.contains_cons, Bool.not_or, beq_iff_eq, hba]
      rw [hfil]

/-- C3: for a total fingerprint, `Distinct` succeeds and returns exactly
the first occurrence of each element under the fingerprint, order
preserved; in particular `Of(1,1,2,2,3).Distinct()` is `[1,2,3]`. -/
theorem Distinct_spec :
    (∀ (T : Type) (k : T → String) (s : stream T),
      s.Distinct (fun v => some (k v)) = some (FromSlice (some (distinctSpec k s.toList)))) ∧
    (Of [(1 : Int), 1, 2, 2, 3]).Distinct (fun n => some (toString n))
      = some (FromSlice (some [1, 2, 3])) := by
  constructor
  · intro T k s
    rw [stream.Distinct, distinctAux_total_eq k s.toList [], Option.map_some']
    congr 2
    have : (s.toList.filter fun v => !([] : List String).contains (k v)) = s.toList := by
      apply List.filter_eq_self.mpr
      intro a _
      rfl
    rw [this]
  · decide

/-- C4: `Distinct` panics exactly when some element of the stream has no
deterministic encoding; the `Option` result is all-or-nothing — either a
fully deduplicated stream or no stream at all (and the receiver stream
value itself is never modified). -/
theorem Distinct_panics_iff {T : Type} (s : stream T) (key : T → Option String) :
    s.Distinct key = none ↔ ∃ v ∈ s.toList, key v = none := by
  rw [stream.Distinct, Option.map_eq_none']
  have main : ∀ (l : List T) (seen : List String),
      distinctAux key l seen = none ↔ ∃ v ∈ l, key v = none := by
    intro l
    induction l with
    | nil => intro seen; simp [distinctAux]
    | cons v rest ih =>
      intro seen
      rw [distinctAux]
      cases hk : key v with
      | none => simp [hk]
      | some k =>
        simp only []
        by_cases hc : seen.contains k = true
        · rw [if_pos hc, ih seen]
          simp [hk]
        · rw [if_neg hc, Option.map_eq_none', ih (k :: seen)]
          simp [hk]
  exact main s.toList []

/-- C10: `Filter`, `Map`, `Reverse` and (on success) `Distinct` always
return initialized (non-nil) backing sequences, and `Limit` on any
initialized stream never takes the return-unchanged nil fast path: it
always lands in the negative-or-truncate branch. -/
theorem initialized_results {T : Type} (s : stream T) (p : T → Bool) (f : T → T)
    (key : T → Option String) :
    (s.Filter p).source.isSome = true ∧
    (s.Map f).source.isSome = true ∧
    s.Reverse.source.isSome = true ∧
    (∀ t : stream T, s.Distinct key = some t → t.source.isSome = true) ∧
    (∀ r : stream T, r.source.isSome = true → ∀ m : Int,
      r.Limit m = if m < 0 then FromSlice (some []) else FromSlice (some (takeInt m r.toList))) := by
  refine ⟨rfl, rfl, rfl, ?_, ?_⟩
  · intro t ht
    rw [stream.Distinct] at ht
    cases hd : distinctAux key s.toList [] with
    | none => rw [hd] at ht; exact absurd ht (by simp)
    | some l =>
      rw [hd, Option.map_some'] at ht
      injection ht with ht
      rw [← ht]
      rfl
  · intro r hr m
    obtain ⟨src⟩ := r
    cases src with
    | none => exact absurd hr (by simp)
    | some l => rfl

/-- Witness for C10 on the nil-backed integer stream: `Filter` initializes
the backing sequence, so a following `Limit(-1)` empties it instead of
returning it unchanged. -/
theorem initialized_results_witness :
    ((FromSlice (none : Option (List Int))).Filter (fun _ => true)).source.isSome = true ∧
    ((FromSlice (none : Option (List Int))).Filter (fun _ => true)).Limit (-1)
      = FromSlice (some []) := by
  have h := initialized_results (FromSlice (none : Option (List Int))) (fun _ => true)
    (fun x => x) (fun n => some (toString n))
  refine ⟨h.1, ?_⟩
  have h2 := h.2.2.2.2 ((FromSlice (none : Option (List Int))).Filter (fun _ => true)) h.1 (-1)
  rw [h2]
  decide
